import Mathlib

/-!
Verification of the k-fold cross-validation core of the tutorial notebooks.

The explicit k-fold cell builds, for a shuffled index list `inds` and a fold
count `K`, per-fold train/test index collections:

  train = [x for (i, x) in enumerate(inds) if i % K != k]
  test  = list(set(inds) - set(train))

and appends one train score and one test score per fold.  The definitions
below embed that cell; further definitions model the `partition`,
`cross_val_score` and `learning_curve` entry points described in the design
document where the notebooks delegate to an external library.
-/

/-- The per-fold training index list of the explicit k-fold cell:
`[x for (i, x) in enumerate(inds) if i % K != j]`. -/
def trainFold (inds : List Nat) (K j : Nat) : List Nat :=
  (inds.enum.filter (fun p => p.1 % K != j)).map Prod.snd

/-- The indices of `inds` sitting at positions congruent to `j` modulo `K`,
in position order (the subsequence complementary to `trainFold`). -/
def testList (inds : List Nat) (K j : Nat) : List Nat :=
  (inds.enum.filter (fun p => p.1 % K == j)).map Prod.snd

/-- The per-fold test indices of the explicit k-fold cell:
`list(set(inds) - set(train))`, modelled as a finite set because the order in
which Python enumerates a set is unspecified. -/
def testSet (inds : List Nat) (K j : Nat) : Finset Nat :=
  inds.toFinset \ (trainFold inds K j).toFinset

theorem trainFold_sublist (inds : List Nat) (K j : Nat) :
    List.Sublist (trainFold inds K j) inds := by
  have h1 : List.Sublist (inds.enum.filter (fun p => p.1 % K != j)) inds.enum :=
    List.filter_sublist _
  have h2 := h1.map Prod.snd
  rwa [List.enum_map_snd] at h2

theorem testList_sublist (inds : List Nat) (K j : Nat) :
    List.Sublist (testList inds K j) inds := by
  have h1 : List.Sublist (inds.enum.filter (fun p => p.1 % K == j)) inds.enum :=
    List.filter_sublist _
  have h2 := h1.map Prod.snd
  rwa [List.enum_map_snd] at h2

theorem mem_trainFold {inds : List Nat} {K j x : Nat} :
    x ∈ trainFold inds K j ↔ ∃ p, inds[p]? = some x ∧ p % K ≠ j := by
  unfold trainFold
  simp only [List.mem_map, List.mem_filter]
  constructor
  · rintro ⟨⟨p, y⟩, ⟨hmem, hne⟩, rfl⟩
    refine ⟨p, ?_, ?_⟩
    · exact List.mk_mem_enum_iff_getElem?.mp hmem
    · simpa using hne
  · rintro ⟨p, hp, hne⟩
    refine ⟨(p, x), ⟨List.mk_mem_enum_iff_getElem?.mpr hp, ?_⟩, rfl⟩
    simpa using hne

theorem mem_testList {inds : List Nat} {K j x : Nat} :
    x ∈ testList inds K j ↔ ∃ p, inds[p]? = some x ∧ p % K = j := by
  unfold testList
  simp only [List.mem_map, List.mem_filter]
  constructor
  · rintro ⟨⟨p, y⟩, ⟨hmem, he⟩, rfl⟩
    refine ⟨p, List.mk_mem_enum_iff_getElem?.mp hmem, ?_⟩
    simpa using he
  · rintro ⟨p, hp, he⟩
    refine ⟨(p, x), ⟨List.mk_mem_enum_iff_getElem?.mpr hp, ?_⟩, rfl⟩
    simpa using he

theorem mem_testSet_of_nodup {inds : List Nat} {K j x : Nat}
    (hnd : inds.Nodup) :
    x ∈ testSet inds K j ↔ ∃ p, inds[p]? = some x ∧ p % K = j := by
  unfold testSet
  simp only [Finset.mem_sdiff, List.mem_toFinset]
  constructor
  · rintro ⟨hin, hnotrain⟩
    obtain ⟨p, hp⟩ := List.mem_iff_getElem?.mp hin
    refine ⟨p, hp, ?_⟩
    by_contra hne
    exact hnotrain (mem_trainFold.mpr ⟨p, hp, hne⟩)
  · rintro ⟨p, hp, he⟩
    refine ⟨List.mem_iff_getElem?.mpr ⟨p, hp⟩, ?_⟩
    intro hx
    obtain ⟨q, hq, hne⟩ := mem_trainFold.mp hx
    have hlt : p < inds.length := (List.getElem?_eq_some_iff.mp hp).1
    have hpq : p = q := List.getElem?_inj hlt hnd (hp.trans hq.symm)
    exact hne (hpq ▸ he)

theorem nodup_of_perm_range {inds : List Nat} {n : Nat}
    (h : inds.Perm (List.range n)) : inds.Nodup :=
  h.nodup_iff.mpr (List.nodup_range n)

theorem toFinset_eq_range_of_perm {inds : List Nat} {n : Nat}
    (h : inds.Perm (List.range n)) : inds.toFinset = Finset.range n := by
  ext x
  simp [List.mem_toFinset, h.mem_iff, List.mem_range]

theorem trainFold_toFinset_subset (inds : List Nat) (K j : Nat) :
    (trainFold inds K j).toFinset ⊆ inds.toFinset := by
  intro x hx
  rw [List.mem_toFinset] at hx ⊢
  exact (trainFold_sublist inds K j).subset hx

/-- Claim C1: for every n ≥ k ≥ 2 and every shuffled index list (a permutation
of 0..n-1), the per-fold train/test construction of the k-fold cell produces
K test folds whose union is {0..n-1} and whose pairwise intersections are
empty, and for each fold the train list is the complement of the test set:
train and test are disjoint and together cover {0..n-1}. -/
theorem kfold_partition_invariants (n K : Nat) (inds : List Nat)
    (hK : 2 ≤ K) (_hn : K ≤ n) (hperm : inds.Perm (List.range n)) :
    ((Finset.range K).biUnion (fun j => testSet inds K j) = Finset.range n)
    ∧ (∀ j1 j2, j1 < K → j2 < K → j1 ≠ j2 →
        testSet inds K j1 ∩ testSet inds K j2 = ∅)
    ∧ (∀ j, j < K →
        (trainFold inds K j).toFinset ∩ testSet inds K j = ∅
        ∧ (trainFold inds K j).toFinset ∪ testSet inds K j = Finset.range n) := by
  have hnd := nodup_of_perm_range hperm
  have hfin := toFinset_eq_range_of_perm hperm
  refine ⟨?_, ?_, ?_⟩
  · ext x
    simp only [Finset.mem_biUnion, Finset.mem_range]
    constructor
    · rintro ⟨j, hj, hx⟩
      unfold testSet at hx
      have hxi := (Finset.mem_sdiff.mp hx).1
      rwa [hfin, Finset.mem_range] at hxi
    · intro hx
      have hxi : x ∈ inds := by
        rw [← List.mem_toFinset, hfin]
        exact Finset.mem_range.mpr hx
      obtain ⟨p, hp⟩ := List.mem_iff_getElem?.mp hxi
      refine ⟨p % K, Nat.mod_lt _ (by omega), ?_⟩
      exact (mem_testSet_of_nodup hnd).mpr ⟨p, hp, rfl⟩
  · intro j1 j2 hj1 hj2 hne
    ext x
    simp only [Finset.mem_inter, Finset.not_mem_empty, iff_false, not_and]
    intro h1 h2
    obtain ⟨p1, hp1, he1⟩ := (mem_testSet_of_nodup hnd).mp h1
    obtain ⟨p2, hp2, he2⟩ := (mem_testSet_of_nodup hnd).mp h2
    have hlt : p1 < inds.length := (List.getElem?_eq_some_iff.mp hp1).1
    have hpq : p1 = p2 := List.getElem?_inj hlt hnd (hp1.trans hp2.symm)
    rw [hpq] at he1
    exact hne (he1.symm.trans he2)
  · intro j hj
    constructor
    · ext x
      simp only [Finset.mem_inter, Finset.not_mem_empty, iff_false, not_and]
      intro h1 h2
      unfold testSet at h2
      exact absurd h1 (Finset.mem_sdiff.mp h2).2
    · have hsub := trainFold_toFinset_subset inds K j
      rw [← hfin]
      unfold testSet
      ext x
      simp only [Finset.mem_union, Finset.mem_sdiff]
      constructor
      · rintro (hx | ⟨hx, _⟩)
        · exact hsub hx
        · exact hx
      · intro hx
        by_cases hxa : x ∈ (trainFold inds K j).toFinset
        · exact Or.inl hxa
        · exact Or.inr ⟨hx, hxa⟩

/-- Claim C4: fold assignment follows the position-mod-K rule: the test fold j
is exactly the set of entries of the (shuffled) index list sitting at
positions congruent to j modulo K, and the train fold is its complement
within {0..n-1}. -/
theorem kfold_position_mod_rule (n K j : Nat) (inds : List Nat)
    (hperm : inds.Perm (List.range n)) :
    testSet inds K j = (testList inds K j).toFinset
    ∧ (trainFold inds K j).toFinset = Finset.range n \ testSet inds K j := by
  have hnd := nodup_of_perm_range hperm
  constructor
  · ext x
    rw [List.mem_toFinset, mem_testList, mem_testSet_of_nodup hnd]
  · ext x
    simp only [Finset.mem_sdiff, List.mem_toFinset, Finset.mem_range,
      mem_trainFold, mem_testSet_of_nodup hnd]
    constructor
    · rintro ⟨p, hp, hne⟩
      have hxi : x ∈ inds := List.mem_iff_getElem?.mpr ⟨p, hp⟩
      have hxn : x < n := List.mem_range.mp (hperm.mem_iff.mp hxi)
      refine ⟨hxn, ?_⟩
      rintro ⟨q, hq, he⟩
      have hlt : p < inds.length := (List.getElem?_eq_some_iff.mp hp).1
      have hpq : p = q := List.getElem?_inj hlt hnd (hp.trans hq.symm)
      exact hne (hpq ▸ he)
    · rintro ⟨hxn, hnot⟩
      have hxi : x ∈ inds := hperm.mem_iff.mpr (List.mem_range.mpr hxn)
      obtain ⟨p, hp⟩ := List.mem_iff_getElem?.mp hxi
      refine ⟨p, hp, fun he => hnot ⟨p, hp, he⟩⟩

theorem testList_eq_testSet {inds : List Nat} (K j : Nat)
    (hnd : inds.Nodup) :
    testSet inds K j = (testList inds K j).toFinset := by
  ext x
  rw [List.mem_toFinset, mem_testList, mem_testSet_of_nodup hnd]

theorem testList_length (inds : List Nat) (K j : Nat) :
    (testList inds K j).length =
      ((List.range inds.length).filter (fun p => p % K == j)).length := by
  unfold testList
  rw [List.length_map]
  have h1 : (List.range inds.length).filter (fun p => p % K == j)
      = (inds.enum.map Prod.fst).filter (fun p => p % K == j) := by
    rw [List.enum_map_fst]
  rw [h1, List.filter_map, List.length_map]
  rfl

theorem length_filter_mod_range (K j : Nat) (hK : 0 < K) (hj : j < K) :
    ∀ n, ((List.range n).filter (fun p => p % K == j)).length
      = n / K + if j < n % K then 1 else 0 := by
  intro n
  induction n with
  | zero => simp
  | succ m ih =>
    rw [List.range_succ, List.filter_append, List.length_append, ih]
    have hsplit : m + 1 = K * (m / K) + (m % K + 1) := by
      have := Nat.div_add_mod m K
      omega
    have hmlt : m % K < K := Nat.mod_lt _ hK
    have hmod : (m + 1) % K = (m % K + 1) % K := by
      conv_lhs => rw [hsplit]
      rw [Nat.mul_add_mod]
    have hdiv : (m + 1) / K = m / K + (m % K + 1) / K := by
      conv_lhs => rw [hsplit]
      rw [Nat.mul_add_div hK]
    simp only [List.filter_cons, List.filter_nil, beq_iff_eq,
      apply_ite List.length, List.length_cons, List.length_nil]
    by_cases hcase : m % K + 1 = K
    · have h1 : (m + 1) % K = 0 := by rw [hmod, hcase, Nat.mod_self]
      have h2 : (m + 1) / K = m / K + 1 := by
        rw [hdiv, hcase, Nat.div_self hK]
      split_ifs <;> omega
    · have hlt2 : m % K + 1 < K := by omega
      have h1 : (m + 1) % K = m % K + 1 := by rw [hmod, Nat.mod_eq_of_lt hlt2]
      have h2 : (m + 1) / K = m / K := by
        rw [hdiv, Nat.div_eq_of_lt hlt2]
        omega
      split_ifs <;> omega

theorem card_testSet_eq (n K j : Nat) (inds : List Nat)
    (hperm : inds.Perm (List.range n)) (hK : 0 < K) (hj : j < K) :
    (testSet inds K j).card = n / K + if j < n % K then 1 else 0 := by
  have hnd := nodup_of_perm_range hperm
  rw [testList_eq_testSet K j hnd,
    List.toFinset_card_of_nodup ((testList_sublist inds K j).nodup hnd),
    testList_length]
  have hlen : inds.length = n := hperm.length_eq.trans (List.length_range n)
  rw [hlen, length_filter_mod_range K j hK hj]

/-- Claim C5: fold sizes are balanced: for n ≥ k ≥ 2 every test fold has
⌊n/K⌋ or ⌊n/K⌋+1 elements, any two test-fold sizes differ by at most one,
and concretely for n=11, K=5 in natural order the sizes are [3,2,2,2,2]
and the folds cover {0..10}. -/
theorem kfold_fold_balance (n K : Nat) (inds : List Nat)
    (hK : 2 ≤ K) (_hn : K ≤ n) (hperm : inds.Perm (List.range n)) :
    (∀ j, j < K →
      (testSet inds K j).card = n / K ∨ (testSet inds K j).card = n / K + 1)
    ∧ (∀ j1 j2, j1 < K → j2 < K →
        (testSet inds K j1).card ≤ (testSet inds K j2).card + 1)
    ∧ (List.range 5).map (fun j => (testSet (List.range 11) 5 j).card)
        = [3, 2, 2, 2, 2]
    ∧ (Finset.range 5).biUnion (fun j => testSet (List.range 11) 5 j)
        = Finset.range 11 := by
  have hK0 : 0 < K := by omega
  refine ⟨?_, ?_, by decide, by decide⟩
  · intro j hj
    rw [card_testSet_eq n K j inds hperm hK0 hj]
    by_cases h : j < n % K
    · right
      rw [if_pos h]
    · left
      rw [if_neg h]
      omega
  · intro j1 j2 hj1 hj2
    rw [card_testSet_eq n K j1 inds hperm hK0 hj1,
        card_testSet_eq n K j2 inds hperm hK0 hj2]
    split_ifs <;> omega

/-- Claim C10: the per-fold train list preserves the relative order of the
shuffled index list: it is an ordered subsequence of `inds`, and its members
are exactly the entries of `inds` at positions not congruent to j mod K,
while the test fold is produced by a set difference (element order
unspecified, hence a finite set). -/
theorem kfold_train_order_preserved (inds : List Nat) (K j : Nat) :
    List.Sublist (trainFold inds K j) inds
    ∧ (∀ x, x ∈ trainFold inds K j ↔ ∃ p, inds[p]? = some x ∧ p % K ≠ j)
    ∧ testSet inds K j = inds.toFinset \ (trainFold inds K j).toFinset :=
  ⟨trainFold_sublist inds K j, fun _ => mem_trainFold, rfl⟩

/-- Witness for `kfold_partition_invariants`: n=10, K=5, identity order. -/
theorem kfold_partition_invariants_witness :
    (2 ≤ 5 ∧ 5 ≤ 10 ∧ (List.range 10).Perm (List.range 10))
    ∧ (Finset.range 5).biUnion (fun j => testSet (List.range 10) 5 j)
        = Finset.range 10 :=
  ⟨⟨by decide, by decide, List.Perm.refl _⟩,
    (kfold_partition_invariants 10 5 (List.range 10) (by decide) (by decide)
      (List.Perm.refl _)).1⟩

/-- Witness for `kfold_position_mod_rule`: n=10, K=5, j=2, identity order. -/
theorem kfold_position_mod_rule_witness :
    (List.range 10).Perm (List.range 10)
    ∧ testSet (List.range 10) 5 2 = (testList (List.range 10) 5 2).toFinset :=
  ⟨List.Perm.refl _,
    (kfold_position_mod_rule 10 5 2 (List.range 10) (List.Perm.refl _)).1⟩

/-- Witness for `kfold_fold_balance`: n=11, K=5, fold 0, identity order. -/
theorem kfold_fold_balance_witness :
    (2 ≤ 5 ∧ 5 ≤ 11 ∧ 0 < 5)
    ∧ ((testSet (List.range 11) 5 0).card = 11 / 5
       ∨ (testSet (List.range 11) 5 0).card = 11 / 5 + 1) :=
  ⟨⟨by decide, by decide, by decide⟩,
    (kfold_fold_balance 11 5 (List.range 11) (by decide) (by decide)
      (List.Perm.refl _)).1 0 (by decide)⟩

/-- Modelled from the spec: the RNG component ("a seeded pseudorandom source
supporting index permutation", implementation-defined); the notebooks call
the process-wide generator of the Python standard library, whose internals are
not part of the repository.  The model is a linear congruential generator;
`rngNext` advances the generator state. -/
def rngNext (s : Nat) : Nat := (s * 1103515245 + 12345) % 2147483648

/-- One pseudorandom draw below `bound`, together with the advanced
generator state. -/
def randbelow (bound s : Nat) : Nat × Nat := ((s / 65536) % bound, rngNext s)

/-- Swap the entries of `l` at positions `i` and `j`. -/
def listSwap (l : List Nat) (i j : Nat) : List Nat :=
  (l.set i (l.getD j 0)).set j (l.getD i 0)

/-- Fisher–Yates main loop (`for i in reversed(range(1, len(x)))`): swap
position `i` with a drawn position `≤ i`, threading the generator state. -/
def fyLoop : List Nat → Nat → Nat → List Nat × Nat
  | x, s, 0 => (x, s)
  | x, s, i + 1 =>
    let p := randbelow (i + 2) s
    fyLoop (listSwap x (i + 1) p.1) p.2 i

/-- `random.shuffle(x)` with the generator state made explicit: permutes `x`
by Fisher–Yates, consuming and advancing the (process-wide) state. -/
def shuffleRun (x : List Nat) (s : Nat) : List Nat × Nat :=
  fyLoop x s (x.length - 1)

/-- The shuffling k-fold cell as a function of the ambient global RNG state:
`inds = list(range(n)); shuffle(inds)` followed by the per-fold train/test
construction.  Returns the fold sequence together with the advanced global
state, since `random.shuffle` mutates the process-wide generator. -/
def kfoldCell (n K g : Nat) : List (List Nat × Finset Nat) × Nat :=
  let p := shuffleRun (List.range n) g
  ((List.range K).map (fun j => (trainFold p.1 K j, testSet p.1 K j)), p.2)

/-- Claim C3 (refuted by the code): the cell draws from the unseeded
process-wide generator, so two runs with identical inputs (n = 4, K = 2, no
seed — the code accepts none) do not yield the identical fold sequence: the
first run advances the global state and the second run, started from that
state, produces different folds. -/
theorem global_rng_breaks_determinism :
    (kfoldCell 4 2 0).1 ≠ (kfoldCell 4 2 (kfoldCell 4 2 0).2).1
    ∧ (kfoldCell 4 2 0).2 ≠ 0 := by
  constructor
  · decide
  · decide

/-- Modelled from the spec: the `partition(n, k, seed, shuffle)` entry point.
When `shuffle` is false the indices are used in natural order 0..n-1 and the
seed is never consulted; when true the index list is permuted by the seeded
Fisher–Yates shuffle.  The per-fold construction is that of the source cell. -/
def partition (n K seed : Nat) (doShuffle : Bool) :
    List (List Nat × Finset Nat) :=
  let inds := if doShuffle then (shuffleRun (List.range n) seed).1
              else List.range n
  (List.range K).map (fun j => (trainFold inds K j, testSet inds K j))

/-- Claim C6: with shuffle off the partition is the identity partition on
natural index order: the seed is irrelevant, the test set of fold j is exactly
{i < n | i mod K = j}, and for n=10, K=5 the test folds are
{0,5}, {1,6}, {2,7}, {3,8}, {4,9}. -/
theorem shuffle_off_identity (n K seed1 seed2 j : Nat) (hj : j < K) :
    partition n K seed1 false = partition n K seed2 false
    ∧ (partition n K seed1 false)[j]? =
        some (trainFold (List.range n) K j, testSet (List.range n) K j)
    ∧ testSet (List.range n) K j
        = (Finset.range n).filter (fun i => i % K = j)
    ∧ (List.range 5).map (fun j2 => testSet (List.range 10) 5 j2)
        = [{0, 5}, {1, 6}, {2, 7}, {3, 8}, {4, 9}] := by
  refine ⟨rfl, ?_, ?_, by decide⟩
  · unfold partition
    simp only [Bool.false_eq_true, if_false, List.getElem?_map,
      List.getElem?_range hj, Option.map_some, Option.map]
  · ext x
    rw [mem_testSet_of_nodup (List.nodup_range n)]
    simp only [Finset.mem_filter, Finset.mem_range]
    constructor
    · rintro ⟨p, hp, he⟩
      obtain ⟨hlt, hval⟩ := List.getElem?_eq_some_iff.mp hp
      rw [List.getElem_range] at hval
      rw [List.length_range] at hlt
      subst hval
      exact ⟨hlt, he⟩
    · rintro ⟨hx, he⟩
      refine ⟨x, ?_, he⟩
      exact List.getElem?_range hx

/-- Witness for `shuffle_off_identity`: n=10, K=5, j=1, seeds 7 and 42. -/
theorem shuffle_off_identity_witness :
    1 < 5 ∧ partition 10 5 7 false = partition 10 5 42 false :=
  ⟨by decide, (shuffle_off_identity 10 5 7 42 1 (by decide)).1⟩

/-- Estimator lifecycle events of the explicit cell: instances are numbered
by creation order; `fit id j` records a call of `est.fit` on instance `id`
in fold `j`. -/
inductive EstEvent where
  | create (id : Nat)
  | fit (id : Nat) (fold : Nat)
deriving DecidableEq

/-- The estimator lifecycle of the explicit k-fold cell: a single
`LinearRegression()` instance is created before the loop; every fold then
calls `est.fit` on that same instance. -/
def cellEstEvents (K : Nat) : List EstEvent :=
  EstEvent.create 0 :: (List.range K).map (fun j => EstEvent.fit 0 j)

/-- A trace evaluates each fold with a fresh estimator instance: no instance
is fitted in two distinct folds. -/
def freshEstimatorPerFold (tr : List EstEvent) : Prop :=
  ∀ id j1 j2, EstEvent.fit id j1 ∈ tr → EstEvent.fit id j2 ∈ tr → j1 = j2

/-- Claim C2 (refuted by the code): in the explicit cell with K = 5 the
single estimator instance created before the loop is fitted in fold 0 and
fitted again in fold 1, so the loop does not evaluate every fold with a
fresh, never-previously-fitted instance. -/
theorem estimator_instance_reused_across_folds :
    EstEvent.fit 0 0 ∈ cellEstEvents 5
    ∧ EstEvent.fit 0 1 ∈ cellEstEvents 5
    ∧ ¬ freshEstimatorPerFold (cellEstEvents 5) := by
  refine ⟨by decide, by decide, ?_⟩
  intro h
  have h01 := h 0 0 1 (by decide) (by decide)
  exact absurd h01 (by decide)

/-- The error taxonomy of the design document (the part the claims use). -/
inductive CVError where
  | invalidArguments
  | estimatorFailure (fold : Nat)
deriving DecidableEq

/-- Modelled from the spec: `partition` validates its arguments — it requires
n ≥ k ≥ 2 and fails with InvalidArguments otherwise (the notebooks have no
argument handling; the design document specifies the check). -/
def partitionChecked (n K seed : Nat) (doShuffle : Bool) :
    Except CVError (List (List Nat × Finset Nat)) :=
  if K < 2 ∨ n < K then Except.error CVError.invalidArguments
  else Except.ok (partition n K seed doShuffle)

/-- Modelled from the spec: `cross_val_score` obtains the folds from the
partitioner before touching the estimator, then fits and scores once per
fold; `ev` abstracts the fit-then-score step of a fresh estimator, returning
its (train score, test score) pair.  The second component counts the fits
performed: one per fold on success, none on a partitioner error. -/
def crossValScoreCounted {α : Type} (n K seed : Nat) (doShuffle : Bool)
    (ev : List Nat → Finset Nat → α × α) :
    Except CVError (List α × List α) × Nat :=
  match partitionChecked n K seed doShuffle with
  | Except.error e => (Except.error e, 0)
  | Except.ok folds =>
      (Except.ok (folds.map (fun f => (ev f.1 f.2).1),
                  folds.map (fun f => (ev f.1 f.2).2)),
       folds.length)

/-- Claim C7: whenever K < 2 or n < K, the partition and the enclosing
cross-validation call fail with InvalidArguments; the failure is detected
before any estimator fit (the fit count is 0) and no partial results are
returned. -/
theorem invalid_arguments_detected_before_fit {α : Type} (n K seed : Nat)
    (doShuffle : Bool) (ev : List Nat → Finset Nat → α × α)
    (h : K < 2 ∨ n < K) :
    partitionChecked n K seed doShuffle
        = Except.error CVError.invalidArguments
    ∧ (crossValScoreCounted n K seed doShuffle ev).1
        = Except.error CVError.invalidArguments
    ∧ (crossValScoreCounted n K seed doShuffle ev).2 = 0 := by
  have hp : partitionChecked n K seed doShuffle
      = Except.error CVError.invalidArguments := by
    unfold partitionChecked
    rw [if_pos h]
  refine ⟨hp, ?_, ?_⟩ <;>
    · unfold crossValScoreCounted
      rw [hp]

/-- Witness for `invalid_arguments_detected_before_fit`: n=5, K=1. -/
theorem invalid_arguments_detected_before_fit_witness :
    ((1 : Nat) < 2 ∨ (5 : Nat) < 1)
    ∧ partitionChecked 5 1 0 false = Except.error CVError.invalidArguments :=
  ⟨Or.inl (by decide),
    (invalid_arguments_detected_before_fit 5 1 0 false
      (fun _ _ => ((0 : Nat), (0 : Nat))) (Or.inl (by decide))).1⟩

/-- The score-accumulation loop of the explicit cell: starting from the empty
`train_r2`/`test_r2` lists, each fold appends one train score and one test
score; `ev` abstracts `est.fit` followed by the two `est.score` calls,
returning the (train score, test score) pair for the given split. -/
def cellScoreLoop {α : Type} (K : Nat) (inds : List Nat)
    (ev : List Nat → Finset Nat → α × α) : List α × List α :=
  (List.range K).foldl
    (fun acc j =>
      (acc.1 ++ [(ev (trainFold inds K j) (testSet inds K j)).1],
       acc.2 ++ [(ev (trainFold inds K j) (testSet inds K j)).2]))
    ([], [])

theorem foldl_append_pair_eq {α β : Type} (f g : β → α) (l : List β) :
    ∀ acc : List α × List α,
      l.foldl (fun a b => (a.1 ++ [f b], a.2 ++ [g b])) acc
        = (acc.1 ++ l.map f, acc.2 ++ l.map g) := by
  induction l with
  | nil =>
    intro acc
    cases acc
    simp
  | cons b l ih =>
    intro acc
    simp only [List.foldl_cons, List.map_cons, ih]
    simp

/-- Modelled from the spec: the learning-curve training subset for fold j at
requested size s: the first min(s, |train_j|) entries of train_j, in the
order the partitioner produced it. -/
def lcTrainSubset (inds : List Nat) (K j s : Nat) : List Nat :=
  (trainFold inds K j).take (min s (trainFold inds K j).length)

/-- Modelled from the spec: the learning-curve score matrices, of shape
(|sizes|, K): one row per requested size in schedule order, one column per
fold; entry (s, j) is the score pair a fresh estimator trained on the size-s
prefix of train_j produces on that prefix (train matrix) and on test_j
(test matrix). -/
def learningCurveMatrices {α : Type} (inds : List Nat) (K : Nat)
    (sizes : List Nat) (ev : List Nat → Finset Nat → α × α) :
    List (List α) × List (List α) :=
  (sizes.map (fun s => (List.range K).map
      (fun j => (ev (lcTrainSubset inds K j s) (testSet inds K j)).1)),
   sizes.map (fun s => (List.range K).map
      (fun j => (ev (lcTrainSubset inds K j s) (testSet inds K j)).2)))

theorem map_length_eq_replicate {α β : Type} (l : List α) (K : Nat)
    (f : α → List β) (hf : ∀ a, (f a).length = K) :
    (l.map f).map List.length = List.replicate l.length K := by
  induction l with
  | nil => rfl
  | cons a l ih =>
    simp only [List.map_cons, List.length_cons, List.replicate_succ, hf, ih]

/-- Claim C8: result shapes: the cross-validated scoring of the explicit cell
returns two score vectors of length exactly K (one train and one test entry
appended per fold, indexed by fold position), and the learning-curve
operation returns two score matrices of shape (|sizes|, K): rows ordered by
the input size schedule, each row holding one entry per fold. -/
theorem cross_validation_result_shapes {α : Type} (K : Nat) (inds : List Nat)
    (sizes : List Nat) (ev : List Nat → Finset Nat → α × α) :
    (cellScoreLoop K inds ev).1.length = K
    ∧ (cellScoreLoop K inds ev).2.length = K
    ∧ (learningCurveMatrices inds K sizes ev).1.length = sizes.length
    ∧ (learningCurveMatrices inds K sizes ev).2.length = sizes.length
    ∧ (learningCurveMatrices inds K sizes ev).1.map List.length
        = List.replicate sizes.length K
    ∧ (learningCurveMatrices inds K sizes ev).2.map List.length
        = List.replicate sizes.length K := by
  have h : cellScoreLoop K inds ev
      = ((List.range K).map
          (fun j => (ev (trainFold inds K j) (testSet inds K j)).1),
         (List.range K).map
          (fun j => (ev (trainFold inds K j) (testSet inds K j)).2)) := by
    unfold cellScoreLoop
    rw [foldl_append_pair_eq
      (fun j => (ev (trainFold inds K j) (testSet inds K j)).1)
      (fun j => (ev (trainFold inds K j) (testSet inds K j)).2)
      (List.range K) ([], [])]
    simp
  refine ⟨?_, ?_, ?_, ?_, ?_, ?_⟩
  · rw [h]
    simp [List.length_map, List.length_range]
  · rw [h]
    simp [List.length_map, List.length_range]
  · simp [learningCurveMatrices]
  · simp [learningCurveMatrices]
  · exact map_length_eq_replicate sizes K _
      (fun s => by simp [List.length_map, List.length_range])
  · exact map_length_eq_replicate sizes K _
      (fun s => by simp [List.length_map, List.length_range])

/-- Claim C9: monotone inclusion in the learning curve: for requested sizes
s1 < s2 and any fold j, the training subset used at s1 is a prefix of the
training subset used at s2, each being the first min(s, |train_j|) entries
of train_j in its canonical order. -/
theorem learning_curve_monotone_inclusion (inds : List Nat) (K j s1 s2 : Nat)
    (h : s1 < s2) :
    lcTrainSubset inds K j s1 <+: lcTrainSubset inds K j s2
    ∧ (lcTrainSubset inds K j s1).length
        = min s1 (trainFold inds K j).length := by
  constructor
  · unfold lcTrainSubset
    have hle : min s1 (trainFold inds K j).length
        ≤ min s2 (trainFold inds K j).length := by omega
    have heq : (trainFold inds K j).take (min s1 (trainFold inds K j).length)
        = ((trainFold inds K j).take
            (min s2 (trainFold inds K j).length)).take
              (min s1 (trainFold inds K j).length) := by
      rw [List.take_take, Nat.min_eq_left hle]
    rw [heq]
    exact List.take_prefix _ _
  · unfold lcTrainSubset
    rw [List.length_take]
    omega

/-- Witness for `learning_curve_monotone_inclusion`: n=10, K=5, j=0,
sizes 2 < 4. -/
theorem learning_curve_monotone_inclusion_witness :
    2 < 4
    ∧ lcTrainSubset (List.range 10) 5 0 2 <+: lcTrainSubset (List.range 10) 5 0 4 :=
  ⟨by decide,
    (learning_curve_monotone_inclusion (List.range 10) 5 0 2 4 (by decide)).1⟩
